import Mathlib

/-!
Verification of the boot-image assembly pipeline of the cuttlefish repository,
file host/commands/assemble_cvd/boot_image_utils.cc, against its specification.

Byte buffers are modelled as List Nat with each element a byte value 0..255.
The code is compiled for little-endian x86-64 Linux hosts, where the C type
char is signed; the embedding of the checksum loop therefore converts each
byte through a signed char before the unsigned 32-bit accumulation, exactly
as `bootconfig_csum += bootconfig[i]` does there.
-/

set_option maxRecDepth 100000

namespace BootImageUtils

/-- The fixed three-line preamble written by RepackGem5BootImage. -/
def preambleString : String :=
  "androidboot.slot_suffix=_a\nandroidboot.force_normal_boot=1\nandroidboot.verifiedbootstate=orange\n"

/-- Preamble bytes. -/
def preambleBytes : List Nat := preambleString.toList.map Char.toNat

/-- The literal magic trailer bytes of "#BOOTCONFIG\n". -/
def bootconfigMagic : List Nat := "#BOOTCONFIG\n".toList.map Char.toNat

/-- Index of the last byte different from NUL, as std::string::find_last_not_of
with argument char 0 computes it: none models the npos result. -/
def findLastNotNul : List Nat → Option Nat
  | [] => none
  | b :: t =>
    match findLastNotNul t with
    | some i => some (i + 1)
    | none => if b ≠ 0 then some 0 else none

/-- The trimming step of RepackGem5BootImage:
`bootconfig.erase(bootconfig.find_last_not_of(0))`, which erases from the
index of the last non-NUL byte through the end.  A buffer with no non-NUL
byte makes erase throw std::out_of_range, modelled as none. -/
def trimSrc (s : List Nat) : Option (List Nat) :=
  match findLastNotNul s with
  | none => none
  | some i => some (s.take i)

/-- Trimming as the specification words it: remove the trailing NUL bytes
from the end of the buffer and nothing else.  Used only to compare the code
against the claim. -/
def trimTrailingNulsSpec (s : List Nat) : List Nat :=
  (s.reverse.dropWhile (fun b => b == 0)).reverse

/-- The value a byte contributes to the uint32 checksum accumulator when read
back through a signed char, reduced mod 2^32. -/
def signedByteVal (b : Nat) : Nat :=
  if b % 256 < 128 then b % 256 else b % 256 + 4294967040

/-- The checksum loop of RepackGem5BootImage: a uint32 accumulator summed
over the bytes of the trimmed buffer, each read as a (signed) char. -/
def csumSrc (bytes : List Nat) : Nat :=
  bytes.foldl (fun acc b => (acc + signedByteVal b) % 4294967296) 0

/-- The checksum the claim describes: every byte taken as an unsigned value
0..255, summed with wraparound mod 2^32. -/
def csumClaim (bytes : List Nat) : Nat :=
  bytes.foldl (fun acc b => (acc + b % 256) % 4294967296) 0

/-- A 32-bit little-endian encoding of n mod 2^32, as the 4-byte write of the
low half of the 64-bit size value produces on a little-endian host. -/
def le32 (n : Nat) : List Nat :=
  [n % 256, n / 256 % 256, n / 65536 % 256, n / 16777216 % 256]

/-- Decoding of a 4-byte little-endian field. -/
def decodeLe32 : List Nat → Nat
  | [a, b, c, d] => a + 256 * b + 65536 * c + 16777216 * d
  | _ => 0

/-- The config span RepackGem5BootImage emits before the trailer fields:
preamble, vendor bootconfig and persistent bootconfig concatenated, then
passed through the erase-based trimming step. -/
def gem5Config (vendor persistent : List Nat) : Option (List Nat) :=
  trimSrc (preambleBytes ++ vendor ++ persistent)

/-- The full byte sequence appended by RepackGem5BootImage after the two
ramdisks: config, 4-byte length, 4-byte checksum, magic. -/
def gem5Trailer (vendor persistent : List Nat) : Option (List Nat) :=
  (gem5Config vendor persistent).map
    (fun c => c ++ le32 c.length ++ le32 (csumSrc c) ++ bootconfigMagic)

/-- The 4-byte length field of the trailer. -/
def lengthField (vendor persistent : List Nat) : Option (List Nat) :=
  (gem5Config vendor persistent).map (fun c => le32 c.length)

/-- The 4-byte checksum field of the trailer. -/
def checksumField (vendor persistent : List Nat) : Option (List Nat) :=
  (gem5Config vendor persistent).map (fun c => le32 (csumSrc c))

/-- The 6-byte cpio magic "070701". -/
def cpioMagicBytes : List Nat := "070701".toList.map Char.toNat

/-- IsCpioArchive: a single read of 6 bytes from the start of the file; a
short read classifies as not-an-archive, otherwise the bytes are compared
against the magic. -/
def isCpioArchive (content : List Nat) : Bool :=
  let buf := content.take 6
  if buf.length ≠ 6 then false else buf == cpioMagicBytes

/-- A filesystem: a map from paths to optional byte contents. -/
def FS : Type := String → Option (List Nat)

/-- FileExists. -/
def fileExists (fs : FS) (p : String) : Bool := (fs p).isSome

/-- ReadFile; a missing file reads as empty, as the helper swallows errors. -/
def readFile (fs : FS) (p : String) : List Nat := (fs p).getD []

/-- Write a file, truncating any prior content. -/
def setFile (fs : FS) (p : String) (c : List Nat) : FS :=
  fun q => if q = p then some c else fs q

/-- RemoveFile on success. -/
def removeFile (fs : FS) (p : String) : FS :=
  fun q => if q = p then none else fs q

/-- RenameFile on success: the destination takes the source content and the
source disappears. -/
def renameFile (fs : FS) (src dst : String) : FS :=
  fun q => if q = dst then fs src else if q = src then none else fs q

/-- DeleteTmpFileIfNotChanged.  The two Bool oracles say whether the rename
and the remove system calls succeed; the remove result is ignored by the
code, the rename result decides the returned Bool. -/
def deleteTmpFileIfNotChanged (fs : FS) (renameOk removeOk : Bool)
    (tmp cur : String) : Bool × FS :=
  if fileExists fs cur = false ∨ readFile fs cur ≠ readFile fs tmp then
    if renameOk then (true, renameFile fs tmp cur) else (false, fs)
  else
    (true, if removeOk then removeFile fs tmp else fs)

/-- The final write of RepackVendorRamdisk: the stripped-and-repacked ramdisk
bytes followed by the kernel-modules ramdisk bytes, written to the new
ramdisk path with truncation. -/
def repackVendorRamdiskWrite (fs : FS) (strippedPath modulesPath newPath : String) : FS :=
  setFile fs newPath (readFile fs strippedPath ++ readFile fs modulesPath)

/-- A filesystem whose tmp and committed files hold equal bytes. -/
def wfsEq : FS :=
  fun p => if p = "out.tmp" then some [1, 2] else if p = "out" then some [1, 2] else none

/-- A filesystem whose tmp and committed files differ. -/
def wfsDiff : FS :=
  fun p => if p = "out.tmp" then some [3] else if p = "out" then some [1, 2] else none

/-- A filesystem holding a stripped ramdisk and a modules ramdisk. -/
def wfsSrc : FS :=
  fun p => if p = "stripped" then some [5, 6] else if p = "mods" then some [7] else none

/-- The newline character. -/
def nlChar : Char := Char.ofNat 10

/-- The single-quote character. -/
def quoteChar : Char := Char.ofNat 39

/-- Whether pat matches at the front of l, as a bounded comparison: a match
needs the full pattern inside l. -/
def prefTest (pat l : List Char) : Bool := l.take pat.length == pat

/-- std::string::find for a pattern: the index of the first position where
the whole pattern matches, none for npos. -/
def strFind (pat : List Char) : List Char → Option Nat
  | [] => if prefTest pat [] then some 0 else none
  | s@(_ :: t) => if prefTest pat s then some 0 else (strFind pat t).map (· + 1)

/-- std::string::find for a single character. -/
def charFind (c : Char) : List Char → Option Nat
  | [] => none
  | x :: t => if x = c then some 0 else (charFind c t).map (· + 1)

/-- ExtractValue: scan for the first occurrence of the key; if found and a
newline follows the end of the occurrence, return the characters between
them, otherwise return the empty string. -/
def extractValue (dict key : List Char) : List Char :=
  match strFind key dict with
  | none => []
  | some i =>
    match charFind nlChar (dict.drop (i + key.length)) with
    | none => []
    | some d => (dict.drop (i + key.length)).take d

/-- The key substring occurs at position j of dict. -/
abbrev occursAt (dict key : List Char) (j : Nat) : Prop :=
  (dict.drop j).take key.length = key

/-- The key ReadAndroidVersionFromBootImage extracts. -/
def osVersionKey : List Char := "Prop: com.android.build.boot.os_version -> ".toList

/-- The erase-remove idiom of the code: every single-quote character in the
value is removed, wherever it occurs. -/
def stripQuotes (v : List Char) : List Char := v.filter (fun c => c != quoteChar)

/-- Continuation of the version regex after the first character: digits of
the current group, then any number of dot-and-nonempty-digit groups. -/
def versionMatchRest : List Char → Bool
  | [] => true
  | c :: t =>
    if c.isDigit then versionMatchRest t
    else if c = Char.ofNat 46 then
      match t with
      | [] => false
      | d :: t2 => if d.isDigit then versionMatchRest t2 else false
    else false

/-- Full match of the version regex: a first group starting with a nonzero
digit, then dot-separated digit groups. -/
def versionMatch : List Char → Bool
  | [] => false
  | c :: t => (c.isDigit && c != Char.ofNat 48) && versionMatchRest t

/-- The value mapping of ReadAndroidVersionFromBootImage applied to the
dumped metadata text: the literal None maps to the default 0.0.0, any other
value has its quote characters removed and must match the version regex;
none models the hard validation error. -/
def readVersionFromParams (params : List Char) : Option (List Char) :=
  if extractValue params osVersionKey = "None".toList then some ("0.0.0".toList)
  else if versionMatch (stripQuotes (extractValue params osVersionKey)) then
    some (stripQuotes (extractValue params osVersionKey))
  else none

/-- Quote stripping as the claim words it: only a surrounding quote at the
very start and a surrounding quote at the very end are removed.  Used only
to compare the code against the claim. -/
def stripSurroundingQuotes (v : List Char) : List Char :=
  let v1 := match v with
    | [] => []
    | c :: t => if c = quoteChar then t else c :: t
  match v1.getLast? with
  | some c => if c = quoteChar then v1.dropLast else v1
  | none => v1

/-- A metadata dump whose os version value holds an embedded quote. -/
def paramsQuoteCex : List Char := osVersionKey ++ [Char.ofNat 49, quoteChar, Char.ofNat 52, nlChar]

/-- A metadata dump whose os version value is a quoted 14.0.0. -/
def params14 : List Char := osVersionKey ++ [quoteChar] ++ "14.0.0".toList ++ [quoteChar, nlChar]

/-- A metadata dump whose os version value is abc. -/
def paramsAbc : List Char := osVersionKey ++ "abc".toList ++ [nlChar]

/-- A metadata dump whose os version value is the literal None. -/
def paramsNone : List Char := osVersionKey ++ "None".toList ++ [nlChar]

end BootImageUtils

namespace BootImageUtils

/-- C1: the checksum field the code emits for vendor bytes [255, 10] and an
empty persistent blob differs from the unsigned mod 2^32 byte sum of the span
preamble ++ vendor ++ trimmed-persistent that the claim names: the code sums
signed char values and its trimming has already dropped the final non-NUL
byte, so it encodes the signed sum over preamble ++ [255] instead. -/
theorem gem5_checksum_signed_cex :
    (gem5Trailer [255, 10] []).map (fun t => (t.drop (t.length - 16)).take 4)
        ≠ some (le32 (csumClaim (preambleBytes ++ [255, 10] ++ trimTrailingNulsSpec [])))
    ∧ (gem5Trailer [255, 10] []).map (fun t => (t.drop (t.length - 16)).take 4)
        = some (le32 (csumSrc (preambleBytes ++ [255])))
    ∧ checksumField [255, 10] [] = some (le32 (csumSrc (preambleBytes ++ [255]))) := by
  refine ⟨by decide, by decide, by decide⟩

/-- C2: on vendor bytes [97] and an empty persistent blob the accumulated
buffer preamble ++ [97] holds no trailing NUL at all, yet the trimming step
of the code drops the byte 97: the emitted config is the bare preamble, not
the untouched buffer the claim requires. -/
theorem gem5_trim_drops_last_byte :
    gem5Config [97] [] = some preambleBytes
    ∧ trimTrailingNulsSpec (preambleBytes ++ [97] ++ []) = preambleBytes ++ [97]
    ∧ gem5Config [97] [] ≠ some (preambleBytes ++ [97]) := by
  refine ⟨by decide, by decide, by decide⟩

/-- C3: the trimming operation the codec uses is not idempotent: on the
buffer [97, 98], which holds non-NUL bytes only, one application yields [97]
and a second application yields [], so trimming twice differs from trimming
once. -/
theorem gem5_trim_not_idempotent :
    trimSrc [97, 98] = some [97]
    ∧ (trimSrc [97, 98]).bind trimSrc = some []
    ∧ (trimSrc [97, 98]).bind trimSrc ≠ trimSrc [97, 98] := by
  refine ⟨by decide, by decide, by decide⟩

theorem decodeLe32_le32 (n : Nat) : decodeLe32 (le32 n) = n % 4294967296 := by
  simp only [decodeLe32, le32]
  omega

theorem le32_length (n : Nat) : (le32 n).length = 4 := rfl

/-- C4 counterexample: for vendor bytes [120] and an empty persistent blob
the claim reads the length field as the length of preamble ++ vendor ++
trimmed-persistent, but the code emits the length of the erase-trimmed
buffer, which has lost the byte 120. -/
theorem gem5_length_field_cex :
    (gem5Trailer [120] []).map (fun t => (t.drop (t.length - 20)).take 4)
        ≠ some (le32 ((preambleBytes ++ [120] ++ trimTrailingNulsSpec []).length))
    ∧ lengthField [120] [] = some (le32 preambleBytes.length) := by
  refine ⟨by decide, by decide⟩

/-- C4 amended: whenever the trimming step succeeds and yields config c, the
emitted trailer is c, then the 4-byte little-endian length of c mod 2^32,
then the 4-byte checksum field, then the literal magic bytes, in immediate
succession. -/
theorem gem5_trailer_layout :
    ∀ (v p c : List Nat), gem5Config v p = some c →
      gem5Trailer v p = some (c ++ le32 c.length ++ le32 (csumSrc c) ++ bootconfigMagic)
      ∧ ∀ t, gem5Trailer v p = some t →
          t.take c.length = c
          ∧ decodeLe32 ((t.drop c.length).take 4) = c.length % 4294967296
          ∧ (t.drop (c.length + 4)).take 4 = le32 (csumSrc c)
          ∧ t.drop (c.length + 8) = bootconfigMagic := by
  intro v p c h
  have htr : gem5Trailer v p
      = some (c ++ le32 c.length ++ le32 (csumSrc c) ++ bootconfigMagic) := by
    simp [gem5Trailer, h]
  refine ⟨htr, ?_⟩
  intro t ht
  have hteq : t = c ++ le32 c.length ++ le32 (csumSrc c) ++ bootconfigMagic := by
    rw [htr] at ht
    exact (Option.some.inj ht).symm
  subst hteq
  refine ⟨?_, ?_, ?_, ?_⟩
  · rw [List.append_assoc, List.append_assoc]
    exact List.take_left' rfl
  · rw [List.append_assoc, List.append_assoc, List.drop_left' rfl,
      List.take_left' (le32_length c.length)]
    exact decodeLe32_le32 _
  · have hsplit : c ++ le32 c.length ++ le32 (csumSrc c) ++ bootconfigMagic
        = (c ++ le32 c.length) ++ (le32 (csumSrc c) ++ bootconfigMagic) := by
      simp [List.append_assoc]
    rw [hsplit, List.drop_left' (by simp [le32_length]),
      List.take_left' (le32_length (csumSrc c))]
  · have hsplit : c ++ le32 c.length ++ le32 (csumSrc c) ++ bootconfigMagic
        = (c ++ le32 c.length ++ le32 (csumSrc c)) ++ bootconfigMagic := rfl
    rw [hsplit, List.drop_left' (by simp [le32_length])]

theorem gem5_trailer_layout_witness :
    gem5Trailer [97] []
      = some (preambleBytes ++ le32 preambleBytes.length
              ++ le32 (csumSrc preambleBytes) ++ bootconfigMagic)
    ∧ decodeLe32 (((preambleBytes ++ le32 preambleBytes.length
              ++ le32 (csumSrc preambleBytes) ++ bootconfigMagic).drop
              preambleBytes.length).take 4)
        = preambleBytes.length % 4294967296 := by
  have h := gem5_trailer_layout [97] [] preambleBytes (by decide)
  exact ⟨h.1, ((h.2 _ h.1).2).1⟩

/-- C6: IsCpioArchive returns true exactly when at least six bytes are
available and the first six equal the magic "070701"; in particular a file
starting "070701" classifies true, one starting "070700" false, and a
3-byte file false. -/
theorem isCpioArchive_spec :
    (∀ content : List Nat,
        isCpioArchive content = true ↔ 6 ≤ content.length ∧ content.take 6 = cpioMagicBytes)
    ∧ isCpioArchive [48, 55, 48, 55, 48, 49] = true
    ∧ isCpioArchive [48, 55, 48, 55, 48, 48] = false
    ∧ isCpioArchive [48, 55, 48] = false := by
  refine ⟨?_, by decide, by decide, by decide⟩
  intro content
  by_cases hlen : (content.take 6).length = 6
  · have h6 : 6 ≤ content.length := by
      rw [List.length_take] at hlen
      omega
    simp [isCpioArchive, hlen, beq_iff_eq, h6]
  · have h6 : ¬ 6 ≤ content.length := by
      intro hc
      apply hlen
      rw [List.length_take]
      omega
    simp [isCpioArchive, hlen, h6]

/-- C5: when the committed file exists with bytes equal to the tmp file the
guard reports success and leaves the committed file untouched, deleting the
tmp file when the remove succeeds; when the committed file is missing or
differs and the rename succeeds, the tmp content replaces the committed path
and the tmp path disappears; a rename failure is reported as failure. -/
theorem deleteTmp_commit_spec :
    ∀ (fs : FS) (renameOk removeOk : Bool) (tmp cur : String), tmp ≠ cur →
      (fileExists fs cur = true ∧ readFile fs cur = readFile fs tmp →
        (deleteTmpFileIfNotChanged fs renameOk removeOk tmp cur).1 = true
        ∧ (deleteTmpFileIfNotChanged fs renameOk removeOk tmp cur).2 cur = fs cur
        ∧ (removeOk = true →
            (deleteTmpFileIfNotChanged fs renameOk removeOk tmp cur).2 tmp = none))
      ∧ (fileExists fs cur = false ∨ readFile fs cur ≠ readFile fs tmp →
          renameOk = true →
          (deleteTmpFileIfNotChanged fs renameOk removeOk tmp cur).1 = true
          ∧ (deleteTmpFileIfNotChanged fs renameOk removeOk tmp cur).2 cur = fs tmp
          ∧ (deleteTmpFileIfNotChanged fs renameOk removeOk tmp cur).2 tmp = none)
      ∧ (fileExists fs cur = false ∨ readFile fs cur ≠ readFile fs tmp →
          renameOk = false →
          (deleteTmpFileIfNotChanged fs renameOk removeOk tmp cur).1 = false
          ∧ (deleteTmpFileIfNotChanged fs renameOk removeOk tmp cur).2 = fs) := by
  intro fs renameOk removeOk tmp cur htc
  refine ⟨?_, ?_, ?_⟩
  · rintro ⟨h1, h2⟩
    have hcond : ¬(fileExists fs cur = false ∨ readFile fs cur ≠ readFile fs tmp) := by
      simp [h1, h2]
    rw [deleteTmpFileIfNotChanged, if_neg hcond]
    refine ⟨rfl, ?_, ?_⟩
    · cases removeOk
      · rfl
      · simp [removeFile, Ne.symm htc]
    · intro hrm
      subst hrm
      simp [removeFile]
  · intro hdiff hrok
    subst hrok
    rw [deleteTmpFileIfNotChanged, if_pos hdiff]
    refine ⟨rfl, ?_, ?_⟩
    · simp [renameFile]
    · simp [renameFile, htc]
  · intro hdiff hrok
    subst hrok
    rw [deleteTmpFileIfNotChanged, if_pos hdiff]
    exact ⟨rfl, rfl⟩

theorem deleteTmp_commit_spec_witness :
    ((deleteTmpFileIfNotChanged wfsEq true true "out.tmp" "out").1 = true
      ∧ (deleteTmpFileIfNotChanged wfsEq true true "out.tmp" "out").2 "out" = wfsEq "out"
      ∧ (deleteTmpFileIfNotChanged wfsEq true true "out.tmp" "out").2 "out.tmp" = none)
    ∧ ((deleteTmpFileIfNotChanged wfsDiff true true "out.tmp" "out").1 = true
      ∧ (deleteTmpFileIfNotChanged wfsDiff true true "out.tmp" "out").2 "out" = wfsDiff "out.tmp"
      ∧ (deleteTmpFileIfNotChanged wfsDiff true true "out.tmp" "out").2 "out.tmp" = none)
    ∧ (deleteTmpFileIfNotChanged wfsDiff false true "out.tmp" "out").1 = false := by
  have h1 := (deleteTmp_commit_spec wfsEq true true "out.tmp" "out" (by decide)).1
    ⟨by decide, by decide⟩
  have h2 := (deleteTmp_commit_spec wfsDiff true true "out.tmp" "out" (by decide)).2.1
    (Or.inr (by decide)) rfl
  have h3 := (deleteTmp_commit_spec wfsDiff false true "out.tmp" "out" (by decide)).2.2
    (Or.inr (by decide)) rfl
  exact ⟨⟨h1.1, h1.2.1, h1.2.2 rfl⟩, h2, h3.1⟩

/-- C10: when the committed file exists and equals the tmp file but the
remove of the tmp file fails, the guard still reports success, the
filesystem is unchanged, and the tmp file remains on disk. -/
theorem deleteTmp_unchanged_besteffort :
    ∀ (fs : FS) (renameOk : Bool) (tmp cur : String), tmp ≠ cur →
      fileExists fs cur = true → readFile fs cur = readFile fs tmp →
      (deleteTmpFileIfNotChanged fs renameOk false tmp cur).1 = true
      ∧ (deleteTmpFileIfNotChanged fs renameOk false tmp cur).2 = fs
      ∧ (deleteTmpFileIfNotChanged fs renameOk false tmp cur).2 tmp = fs tmp := by
  intro fs renameOk tmp cur htc h1 h2
  have hcond : ¬(fileExists fs cur = false ∨ readFile fs cur ≠ readFile fs tmp) := by
    simp [h1, h2]
  rw [deleteTmpFileIfNotChanged, if_neg hcond]
  exact ⟨rfl, rfl, rfl⟩

theorem deleteTmp_unchanged_besteffort_witness :
    (deleteTmpFileIfNotChanged wfsEq true false "out.tmp" "out").1 = true
    ∧ (deleteTmpFileIfNotChanged wfsEq true false "out.tmp" "out").2 = wfsEq
    ∧ (deleteTmpFileIfNotChanged wfsEq true false "out.tmp" "out").2 "out.tmp"
        = wfsEq "out.tmp" :=
  deleteTmp_unchanged_besteffort wfsEq true "out.tmp" "out" (by decide) (by decide) (by decide)

/-- C9: the new ramdisk file receives exactly the stripped ramdisk bytes
followed by the kernel-modules ramdisk bytes, the modules bytes trail the
stripped bytes, no other file changes, and any prior content of the output
path is truncated away. -/
theorem repackVendorRamdisk_concat :
    ∀ (fs : FS) (sp mp np : String) (s m : List Nat),
      readFile fs sp = s → readFile fs mp = m →
      readFile (repackVendorRamdiskWrite fs sp mp np) np = s ++ m
      ∧ (s ++ m).take s.length = s
      ∧ (s ++ m).drop s.length = m
      ∧ (∀ q, q ≠ np → repackVendorRamdiskWrite fs sp mp np q = fs q)
      ∧ (∀ prior : List Nat, np ≠ sp → np ≠ mp →
          readFile (repackVendorRamdiskWrite (setFile fs np prior) sp mp np) np = s ++ m) := by
  intro fs sp mp np s m hs hm
  refine ⟨?_, List.take_left s m, List.drop_left s m, ?_, ?_⟩
  · rw [repackVendorRamdiskWrite, hs, hm]
    simp [readFile, setFile]
  · intro q hq
    simp [repackVendorRamdiskWrite, setFile, hq]
  · intro prior hnsp hnmp
    have hsp : readFile (setFile fs np prior) sp = s := by
      rw [← hs]
      simp [readFile, setFile, Ne.symm hnsp]
    have hmp : readFile (setFile fs np prior) mp = m := by
      rw [← hm]
      simp [readFile, setFile, Ne.symm hnmp]
    rw [repackVendorRamdiskWrite, hsp, hmp]
    simp [readFile, setFile]

theorem repackVendorRamdisk_concat_witness :
    readFile (repackVendorRamdiskWrite wfsSrc "stripped" "mods" "new") "new" = [5, 6] ++ [7]
    ∧ ([5, 6] ++ [7]).take ([5, 6] : List Nat).length = [5, 6]
    ∧ readFile (repackVendorRamdiskWrite (setFile wfsSrc "new" [9]) "stripped" "mods" "new")
        "new" = [5, 6] ++ [7] := by
  have h := repackVendorRamdisk_concat wfsSrc "stripped" "mods" "new" [5, 6] [7]
    (by decide) (by decide)
  exact ⟨h.1, h.2.1, h.2.2.2.2 [9] (by decide) (by decide)⟩

theorem prefTest_iff (pat l : List Char) : prefTest pat l = true ↔ l.take pat.length = pat := by
  simp [prefTest]

theorem charFind_eq_some_iff (c : Char) :
    ∀ (s : List Char) (k : Nat),
      charFind c s = some k ↔ s[k]? = some c ∧ ∀ j, j < k → s[j]? ≠ some c := by
  intro s
  induction s with
  | nil =>
    intro k
    constructor
    · intro h
      simp [charFind] at h
    · rintro ⟨h1, _⟩
      simp at h1
  | cons x t ih =>
    intro k
    by_cases hx : x = c
    · constructor
      · intro h
        rw [charFind, if_pos hx] at h
        have hk : k = 0 := (Option.some.inj h).symm
        subst hk
        refine ⟨by simp [hx], ?_⟩
        intro j hj
        exact absurd hj (Nat.not_lt_zero j)
      · rintro ⟨h1, h2⟩
        rw [charFind, if_pos hx]
        cases k with
        | zero => rfl
        | succ k0 =>
          exact absurd (by simp [hx]) (h2 0 (Nat.succ_pos k0))
    · constructor
      · intro h
        rw [charFind, if_neg hx] at h
        obtain ⟨k0, hk0, hkeq⟩ := Option.map_eq_some'.mp h
        subst hkeq
        obtain ⟨ht1, ht2⟩ := (ih k0).mp hk0
        refine ⟨by simpa using ht1, ?_⟩
        intro j hj
        cases j with
        | zero => simp [hx]
        | succ j0 =>
          have hja := ht2 j0 (by omega)
          simpa using hja
      · rintro ⟨h1, h2⟩
        rw [charFind, if_neg hx]
        cases k with
        | zero =>
          exact absurd (by simpa using h1) hx
        | succ k0 =>
          have ht1 : t[k0]? = some c := by simpa using h1
          have ht2 : ∀ j, j < k0 → t[j]? ≠ some c := by
            intro j hj hcon
            exact h2 (j + 1) (by omega) (by simpa using hcon)
          rw [(ih k0).mpr ⟨ht1, ht2⟩]
          rfl

theorem charFind_eq_none_iff (c : Char) :
    ∀ s : List Char, charFind c s = none ↔ ∀ j : Nat, s[j]? ≠ some c := by
  intro s
  induction s with
  | nil => simp [charFind]
  | cons x t ih =>
    constructor
    · intro h j
      rw [charFind] at h
      by_cases hx : x = c
      · rw [if_pos hx] at h
        exact absurd h (by simp)
      · rw [if_neg hx] at h
        have ht : charFind c t = none := by
          cases hcf : charFind c t with
          | none => rfl
          | some v =>
            rw [hcf] at h
            simp at h
        cases j with
        | zero => simpa using hx
        | succ j0 => simpa using (ih.mp ht) j0
    · intro h
      rw [charFind]
      have hx : x ≠ c := by
        intro hc
        exact h 0 (by simpa using hc)
      rw [if_neg hx]
      have ht : charFind c t = none :=
        ih.mpr (fun j hcon => h (j + 1) (by simpa using hcon))
      rw [ht]
      rfl

theorem strFind_eq_some_iff (pat : List Char) :
    ∀ (s : List Char) (k : Nat),
      strFind pat s = some k ↔
        occursAt s pat k ∧ ∀ j, j < k → ¬ occursAt s pat j := by
  intro s
  induction s with
  | nil =>
    intro k
    by_cases hp : prefTest pat [] = true
    · rw [strFind, if_pos hp]
      have hpat : ([] : List Char).take pat.length = pat := (prefTest_iff pat []).mp hp
      constructor
      · intro h
        have hk : k = 0 := (Option.some.inj h).symm
        subst hk
        refine ⟨hpat, ?_⟩
        intro j hj
        exact absurd hj (Nat.not_lt_zero j)
      · rintro ⟨h1, h2⟩
        cases k with
        | zero => rfl
        | succ k0 =>
          exact absurd hpat (h2 0 (Nat.succ_pos k0))
    · rw [strFind, if_neg hp]
      constructor
      · intro h
        exact absurd h (by simp)
      · rintro ⟨h1, _⟩
        exfalso
        apply hp
        rw [prefTest_iff]
        simpa [occursAt] using h1
  | cons x t ih =>
    intro k
    by_cases hp : prefTest pat (x :: t) = true
    · rw [strFind, if_pos hp]
      have hocc0 : occursAt (x :: t) pat 0 := (prefTest_iff pat (x :: t)).mp hp
      constructor
      · intro h
        have hk : k = 0 := (Option.some.inj h).symm
        subst hk
        exact ⟨hocc0, fun j hj => absurd hj (Nat.not_lt_zero j)⟩
      · rintro ⟨h1, h2⟩
        cases k with
        | zero => rfl
        | succ k0 =>
          exact absurd hocc0 (h2 0 (Nat.succ_pos k0))
    · rw [strFind, if_neg hp]
      have hnocc0 : ¬ occursAt (x :: t) pat 0 := by
        intro hc
        apply hp
        rw [prefTest_iff]
        exact hc
      constructor
      · intro h
        obtain ⟨k0, hk0, hkeq⟩ := Option.map_eq_some'.mp h
        subst hkeq
        obtain ⟨ht1, ht2⟩ := (ih k0).mp hk0
        refine ⟨ht1, ?_⟩
        intro j hj
        cases j with
        | zero => exact hnocc0
        | succ j0 =>
          exact ht2 j0 (by omega)
      · rintro ⟨h1, h2⟩
        cases k with
        | zero => exact absurd h1 hnocc0
        | succ k0 =>
          have ht1 : occursAt t pat k0 := h1
          have ht2 : ∀ j, j < k0 → ¬ occursAt t pat j := by
            intro j hj hcon
            exact h2 (j + 1) (by omega) hcon
          rw [(ih k0).mpr ⟨ht1, ht2⟩]
          rfl

theorem strFind_eq_none_iff (pat : List Char) :
    ∀ s : List Char, strFind pat s = none ↔ ∀ j : Nat, ¬ occursAt s pat j := by
  intro s
  induction s with
  | nil =>
    by_cases hp : prefTest pat [] = true
    · rw [strFind, if_pos hp]
      constructor
      · intro h
        exact absurd h (by simp)
      · intro h
        exact absurd ((prefTest_iff pat []).mp hp) (h 0)
    · rw [strFind, if_neg hp]
      constructor
      · intro _ j hc
        apply hp
        rw [prefTest_iff]
        simpa [occursAt] using hc
      · intro _
        rfl
  | cons x t ih =>
    by_cases hp : prefTest pat (x :: t) = true
    · rw [strFind, if_pos hp]
      constructor
      · intro h
        exact absurd h (by simp)
      · intro h
        exact absurd ((prefTest_iff pat (x :: t)).mp hp) (h 0)
    · rw [strFind, if_neg hp]
      constructor
      · intro h j
        have ht : strFind pat t = none := by
          cases hsf : strFind pat t with
          | none => rfl
          | some v =>
            rw [hsf] at h
            simp at h
        cases j with
        | zero =>
          intro hc
          apply hp
          rw [prefTest_iff]
          exact hc
        | succ j0 =>
          intro hc
          exact (ih.mp ht) j0 hc
      · intro h
        have ht : strFind pat t = none :=
          ih.mpr (fun j hcon => h (j + 1) hcon)
        rw [ht]
        rfl

/-- C7: ExtractValue returns the empty string when the key never occurs;
when the key first occurs at i and the first following newline is d
characters after the end of the key, it returns exactly those d characters;
when no newline follows the first occurrence it returns the empty string;
and the two concrete examples of the specification hold. -/
theorem extractValue_spec :
    (∀ dict key : List Char, (∀ j, ¬ occursAt dict key j) → extractValue dict key = [])
    ∧ (∀ dict key : List Char, ∀ i : Nat,
        occursAt dict key i → (∀ j, j < i → ¬ occursAt dict key j) →
        (∀ d : Nat, (dict.drop (i + key.length))[d]? = some nlChar →
            (∀ j, j < d → (dict.drop (i + key.length))[j]? ≠ some nlChar) →
            extractValue dict key = (dict.drop (i + key.length)).take d)
        ∧ ((∀ d : Nat, (dict.drop (i + key.length))[d]? ≠ some nlChar) →
            extractValue dict key = []))
    ∧ extractValue ("a: 1\nb: 2\n".toList) ("b: ".toList) = "2".toList
    ∧ extractValue ("a: 1".toList) ("b: ".toList) = [] := by
  refine ⟨?_, ?_, by decide, by decide⟩
  · intro dict key h
    have hsf : strFind key dict = none := (strFind_eq_none_iff key dict).mpr h
    simp [extractValue, hsf]
  · intro dict key i hocc hfirst
    have hsf : strFind key dict = some i :=
      (strFind_eq_some_iff key dict i).mpr ⟨hocc, hfirst⟩
    constructor
    · intro d hd hdfirst
      have hcf : charFind nlChar (dict.drop (i + key.length)) = some d :=
        (charFind_eq_some_iff nlChar _ d).mpr ⟨hd, hdfirst⟩
      simp [extractValue, hsf, hcf]
    · intro hnone
      have hcf : charFind nlChar (dict.drop (i + key.length)) = none :=
        (charFind_eq_none_iff nlChar _).mpr hnone
      simp [extractValue, hsf, hcf]

theorem extractValue_spec_witness :
    extractValue ("a: 1\nb: 2\n".toList) ("b: ".toList)
      = (("a: 1\nb: 2\n".toList).drop (5 + ("b: ".toList).length)).take 1 :=
  (extractValue_spec.2.1 ("a: 1\nb: 2\n".toList) ("b: ".toList) 5 (by decide)
    (by decide)).1 1 (by decide) (by decide)

/-- C8 counterexample: a dumped value holding an embedded quote, 1 then a
quote then 4, has no surrounding quotes, and with only surrounding quotes
stripped it fails the version pattern, so the claim requires a hard
validation error; the code instead removes every quote and returns 14. -/
theorem readVersion_quote_strip_cex :
    extractValue paramsQuoteCex osVersionKey = [Char.ofNat 49, quoteChar, Char.ofNat 52]
    ∧ stripSurroundingQuotes [Char.ofNat 49, quoteChar, Char.ofNat 52]
        = [Char.ofNat 49, quoteChar, Char.ofNat 52]
    ∧ versionMatch (stripSurroundingQuotes [Char.ofNat 49, quoteChar, Char.ofNat 52]) = false
    ∧ readVersionFromParams paramsQuoteCex = some [Char.ofNat 49, Char.ofNat 52] := by
  refine ⟨by decide, by decide, by decide, by decide⟩

/-- C8 amended: the literal value None maps to the default 0.0.0; any other
value has every quote character removed, a result failing the version
pattern is a hard validation error, a result matching it is returned; and
every returned version other than the default matches the pattern. -/
theorem readVersion_spec_amended :
    ∀ params : List Char,
      (extractValue params osVersionKey = "None".toList →
        readVersionFromParams params = some ("0.0.0".toList))
      ∧ (extractValue params osVersionKey ≠ "None".toList →
          versionMatch (stripQuotes (extractValue params osVersionKey)) = false →
          readVersionFromParams params = none)
      ∧ (extractValue params osVersionKey ≠ "None".toList →
          versionMatch (stripQuotes (extractValue params osVersionKey)) = true →
          readVersionFromParams params
            = some (stripQuotes (extractValue params osVersionKey)))
      ∧ (∀ v, readVersionFromParams params = some v →
          v = "0.0.0".toList ∨ versionMatch v = true) := by
  intro params
  refine ⟨?_, ?_, ?_, ?_⟩
  · intro h
    rw [readVersionFromParams, if_pos h]
  · intro h1 h2
    rw [readVersionFromParams, if_neg h1, if_neg (by simp [h2])]
  · intro h1 h2
    rw [readVersionFromParams, if_neg h1, if_pos h2]
  · intro v hv
    by_cases h1 : extractValue params osVersionKey = "None".toList
    · left
      have hd : readVersionFromParams params = some ("0.0.0".toList) := by
        rw [readVersionFromParams, if_pos h1]
      rw [hd] at hv
      exact (Option.some.inj hv).symm
    · by_cases h2 : versionMatch (stripQuotes (extractValue params osVersionKey)) = true
      · right
        have hd : readVersionFromParams params
            = some (stripQuotes (extractValue params osVersionKey)) := by
          rw [readVersionFromParams, if_neg h1, if_pos h2]
        rw [hd] at hv
        rw [← Option.some.inj hv]
        exact h2
      · exfalso
        have hd : readVersionFromParams params = none := by
          rw [readVersionFromParams, if_neg h1, if_neg h2]
        rw [hd] at hv
        exact Option.noConfusion hv

theorem readVersion_spec_amended_witness :
    readVersionFromParams paramsNone = some ("0.0.0".toList)
    ∧ readVersionFromParams paramsAbc = none
    ∧ readVersionFromParams params14 = some ("14.0.0".toList) := by
  refine ⟨(readVersion_spec_amended paramsNone).1 (by decide),
    (readVersion_spec_amended paramsAbc).2.1 (by decide) (by decide), ?_⟩
  have h := (readVersion_spec_amended params14).2.2.1 (by decide) (by decide)
  rw [h]
  decide

end BootImageUtils
